import Mathlib

set_option maxRecDepth 4000

/-
Verification development for the perceptual-similarity matching core of
src/app.py (image registration and comparison tool).

The embedding models, faithfully to the source:
  * similarity (app.py lines 50-53) together with the semantics of the
    imagehash library operations it relies on: ImageHash.__sub__ (Hamming
    distance of two boolean hash arrays, TypeError on a size mismatch),
    str(ImageHash) (lowercase zero-padded hex, via the internal binary-array
    to hex conversion) and imagehash.hex_to_hash (hex string back to the
    boolean array, AssertionError on a wrong length and ValueError on a
    non-hex character).
  * the comparison run of tab 2 (app.py lines 240-280): empty-table guard,
    per-row hash decoding, the score/threshold loop, descending sort and
    top-n truncation.
  * the registration loop of tab 1 (app.py lines 140-163): empty uploads are
    skipped, the perceptual hash of each remaining file is computed (an
    unparseable image raises out of the loop) and the success counter grows.

Python floats are modelled as exact rationals.  Every value reaching the
round call in similarity is a dyadic rational with denominator 16, which a
double represents exactly, and Python round applies round-half-even to the
exact value of the double, so exact rational rounding coincides with the
float behaviour on all values that occur.
-/

unseal Rat.mul Rat.inv Rat.add Rat.sub Rat.ofScientific

namespace ImageCompare

/-- Error kinds of the matching core: image bytes that do not parse (PIL
raises inside calc_phash), a stored fingerprint string that does not decode
(imagehash.hex_to_hash raises), and a shape mismatch between two hashes
(ImageHash subtraction raises). -/
inductive AppError where
  | decodeErr : AppError
  | formatErr : AppError
  | dimErr : AppError
deriving DecidableEq, Repr

deriving instance DecidableEq for Except

/-- A fingerprint is the flattened boolean hash array held by an
imagehash.ImageHash object (8 x 8 = 64 entries for the pHash computed in
calc_phash). -/
abbrev Fingerprint := List Bool

/-- Hamming distance of two same-size hash arrays: ImageHash subtraction
returns the count of positions where the flattened arrays differ. -/
def hamming (a b : Fingerprint) : Nat :=
  ((a.zip b).filter (fun p => p.1 != p.2)).length

/-- ImageHash subtraction: raises TypeError (modelled as dimErr) when the two
hash arrays differ in size, otherwise the Hamming distance. -/
def hashSub (h1 h2 : Fingerprint) : Except AppError Nat :=
  if h1.length = h2.length then .ok (hamming h1 h2) else .error .dimErr

/-- Round a rational to the nearest integer with ties to even, the rounding
Python round performs on the exact value of its float argument. -/
def roundHalfEven (q : ℚ) : ℤ :=
  if q - ⌊q⌋ < 1/2 then ⌊q⌋
  else if 1/2 < q - ⌊q⌋ then ⌊q⌋ + 1
  else if Even ⌊q⌋ then ⌊q⌋ else ⌊q⌋ + 1

/-- Python round(x, 2): round to two decimal places, ties to even. -/
def round2 (q : ℚ) : ℚ := (roundHalfEven (q * 100) : ℚ) / 100

/-- similarity from app.py lines 50-53: d = h1 - h2 is the Hamming distance
(the subtraction raises on a size mismatch, which propagates out of
similarity), and the score is round((1 - d / 64) * 100, 2). -/
def similarity (h1 h2 : Fingerprint) : Except AppError ℚ :=
  match hashSub h1 h2 with
  | .error e => .error e
  | .ok d => .ok (round2 ((1 - (d : ℚ) / 64) * 100))

/-- Lowercase hex digit characters as produced by Python formatting with the
x conversion: 0-9 then a-f. -/
def hexDigitChar (n : Nat) : Char :=
  if n < 10 then Char.ofNat (48 + n) else Char.ofNat (87 + n)

/-- Fuel-driven base-16 digit expansion; the fuel only makes the recursion
structural, and hexDigits always supplies enough of it. -/
def hexDigitsAux : Nat → Nat → List Char
  | 0, _ => []
  | fuel + 1, n =>
    if n < 16 then [hexDigitChar n]
    else hexDigitsAux fuel (n / 16) ++ [hexDigitChar (n % 16)]

/-- Digit list of n in base 16, most significant first, without leading
zeros: the digits Python produces when formatting n with the x conversion. -/
def hexDigits (n : Nat) : List Char := hexDigitsAux (n + 1) n

/-- Value of the MSB-first bit string of a hash array read in base 2, which
is how the imagehash hex encoder turns the boolean array into an integer. -/
def bitsToNat (l : List Bool) : Nat :=
  l.foldl (fun acc b => 2 * acc + (if b then 1 else 0)) 0

/-- str(phash): the imagehash binary-array-to-hex conversion formats the
integer value of the MSB-first bit string as lowercase hex, zero-padded on
the left to width ceil(bits / 4) (16 characters for 64 bits). -/
def encodeHash (bits : Fingerprint) : String :=
  let w := (bits.length + 3) / 4
  let ds := hexDigits (bitsToNat bits)
  String.mk (List.replicate (w - ds.length) '0' ++ ds)

/-- Value of one hex character as accepted by Python int(s, 16): decimal
digits, lowercase and uppercase hex letters. -/
def hexVal (c : Char) : Option Nat :=
  if 48 ≤ c.toNat ∧ c.toNat ≤ 57 then some (c.toNat - 48)
  else if 97 ≤ c.toNat ∧ c.toNat ≤ 102 then some (c.toNat - 87)
  else if 65 ≤ c.toNat ∧ c.toNat ≤ 70 then some (c.toNat - 55)
  else none

/-- Accumulating base-16 parse of a character list. -/
def parseHexAux : List Char → Nat → Option Nat
  | [], acc => some acc
  | c :: cs, acc =>
    match hexVal c with
    | none => none
    | some v => parseHexAux cs (16 * acc + v)

/-- Python int(s, 16): none models the ValueError raised on an empty string
or on a character that is not a hex digit. -/
def parseHex (cs : List Char) : Option Nat :=
  match cs with
  | [] => none
  | _ :: _ => parseHexAux cs 0

/-- Integer square root (largest k with k * k <= n), written so that it
reduces structurally; it models int(numpy.sqrt(n)) on the small exact values
hex_to_hash feeds it. -/
def intSqrt (n : Nat) : Nat :=
  ((List.range (n + 1)).filter (fun k => decide (k * k ≤ n))).length - 1

/-- imagehash.hex_to_hash: asserts that 4 * len(hexstr) is a perfect square,
parses the hex integer, and rebuilds the MSB-first bit array with
hash_size * hash_size entries.  Both the failing assert and the ValueError
from the integer parse are modelled as formatErr. -/
def hexToHash (s : String) : Except AppError Fingerprint :=
  let n4 := s.length * 4
  let hs := intSqrt n4
  if hs * hs ≠ n4 then .error .formatErr
  else
    match parseHex s.data with
    | none => .error .formatErr
    | some n => .ok ((List.range (hs * hs)).map (fun i => n.testBit (hs * hs - 1 - i)))

/-- One row of the image_files table as consumed by the comparison tab:
identity, display name, storage locator, stored fingerprint text, optional
annotation. -/
structure Candidate where
  id : Nat
  fileName : String
  s3Url : String
  phash : String
  description : Option String
deriving DecidableEq, Repr

/-- One entry of the results list built in the comparison loop (the dict
appended at app.py lines 263-271). -/
structure MatchRow where
  id : Nat
  fileName : String
  s3Url : String
  similarity : ℚ
  description : Option String
deriving DecidableEq, Repr

/-- The result dict built for a surviving candidate. -/
def mkRow (c : Candidate) (s : ℚ) : MatchRow :=
  { id := c.id, fileName := c.fileName, s3Url := c.s3Url,
    similarity := s, description := c.description }

/-- The apply of imagehash.hex_to_hash over the phash column (app.py lines
255-257): each row's stored hash is decoded in row order, and the first
failure raises out of apply, aborting the whole run. -/
def decodeAll : List Candidate → Except AppError (List (Candidate × Fingerprint))
  | [] => .ok []
  | c :: rest =>
    match hexToHash c.phash with
    | .error e => .error e
    | .ok h =>
      match decodeAll rest with
      | .error e => .error e
      | .ok tl => .ok ((c, h) :: tl)

/-- The for-loop over the rows (app.py lines 259-271): each similarity is
computed in row order and the rows with sim >= threshold are kept; an
exception from similarity aborts the loop. -/
def collectResults (q : Fingerprint) (threshold : ℚ) :
    List (Candidate × Fingerprint) → Except AppError (List MatchRow)
  | [] => .ok []
  | (c, h) :: rest =>
    match similarity q h with
    | .error e => .error e
    | .ok s =>
      match collectResults q threshold rest with
      | .error e => .error e
      | .ok tl => .ok (if threshold ≤ s then mkRow c s :: tl else tl)

/-- Insertion into a descending-sorted list, placed after every entry of
equal or higher score. -/
def insertDesc (r : MatchRow) : List MatchRow → List MatchRow
  | [] => [r]
  | x :: xs => if x.similarity < r.similarity then r :: x :: xs else x :: insertDesc r xs

/-- sort_values by similarity with ascending False (app.py line 278): sort
the result rows by score descending.  pandas delegates the permutation to a
numpy argsort whose default kind is quicksort, and that contract fixes the
descending order of scores but not the relative order of equal scores; this
executable model realises the descending order with an insertion sort, and no
settled claim relies on the tie order this particular realisation happens to
produce. -/
def sortDesc : List MatchRow → List MatchRow
  | [] => []
  | x :: xs => insertDesc x (sortDesc xs)

/-- Outcome of pressing the analyse button in tab 2 once the query image
bytes were read and hashed: the error box shown when the table is empty, an
uncaught exception, the info box shown when nothing meets the threshold, or
the rendered result rows. -/
inductive CompareOutcome where
  | noSources : CompareOutcome
  | aborted : AppError → CompareOutcome
  | noMatches : CompareOutcome
  | results : List MatchRow → CompareOutcome
deriving DecidableEq, Repr

/-- The comparison run of app.py lines 240-280: an empty table shows an error
box and stops; otherwise every stored hash is decoded, the score loop filters
by the threshold, an empty result list shows an info box, and a nonempty one
is sorted by score descending and truncated to the first top_n rows. -/
def compareRun (df : List Candidate) (q : Fingerprint) (threshold : ℚ) (topN : Nat) :
    CompareOutcome :=
  if df.isEmpty then .noSources
  else
    match decodeAll df with
    | .error e => .aborted e
    | .ok rows =>
      match collectResults q threshold rows with
      | .error e => .aborted e
      | .ok [] => .noMatches
      | .ok res => .results ((sortDesc res).take topN)

/-- The registration loop of app.py lines 140-163, with the uploaded files
given as their read byte strings and calc_phash abstracted as the decodeImg
argument (PIL image parsing is outside the repository; an unparseable input
makes it raise, modelled as an error value).  A file whose bytes are empty is
skipped by the continue without any error; otherwise its hash is computed (a
raise aborts the whole loop) and the success counter grows.  The S3 upload
and the DB insert are collaborator calls with no bearing on this control
flow. -/
def registerBatch (decodeImg : List Nat → Except AppError Fingerprint) :
    List (List Nat) → Except AppError Nat
  | [] => .ok 0
  | data :: rest =>
    if data = [] then registerBatch decodeImg rest
    else
      match decodeImg data with
      | .error e => .error e
      | .ok _ =>
        match registerBatch decodeImg rest with
        | .error e => .error e
        | .ok c => .ok (c + 1)

/-- The score similarity assigns at Hamming distance d between 64-bit
hashes: round((1 - d / 64) * 100, 2), exactly the expression of app.py line
53. -/
def scoreOf (d : Nat) : ℚ := round2 ((1 - (d : ℚ) / 64) * 100)

/-- Concrete 64-bit fingerprint: all bits clear. -/
def qZero : Fingerprint := List.replicate 64 false

/-- Concrete 64-bit fingerprint at Hamming distance 1 from qZero. -/
def qOne : Fingerprint := true :: List.replicate 63 false

/-- Concrete 64-bit fingerprint at Hamming distance 32 from qZero, giving
the exact score 50 against it. -/
def qHalf : Fingerprint := List.replicate 32 true ++ List.replicate 32 false

/-- Concrete stored row whose fingerprint text is the encoding of qZero. -/
def cGood : Candidate :=
  { id := 1, fileName := "a.png", s3Url := "s3://bucket/k1",
    phash := "0000000000000000", description := none }

/-- Concrete stored row whose fingerprint text is the encoding of qHalf. -/
def cHalf : Candidate :=
  { id := 2, fileName := "b.png", s3Url := "s3://bucket/k2",
    phash := "ffffffff00000000", description := none }

/-- Concrete stored row whose fingerprint text is the encoding of the
all-ones hash, at Hamming distance 64 from qZero. -/
def cFar : Candidate :=
  { id := 3, fileName := "c.png", s3Url := "s3://bucket/k3",
    phash := "ffffffffffffffff", description := none }

/-- Concrete stored row with malformed fingerprint text (not hex). -/
def cBad : Candidate :=
  { id := 4, fileName := "d.png", s3Url := "s3://bucket/k4",
    phash := "zzzzzzzzzzzzzzzz", description := none }

/-
Theorems.  Claim theorems are marked with their claim id; the remaining
lemmas are shared supporting facts.
-/

/-- The filter over a zipped pair of equal lists keeps nothing, so a hash has
Hamming distance 0 to itself. -/
theorem hamming_self (a : Fingerprint) : hamming a a = 0 := by
  induction a with
  | nil => rfl
  | cons x xs ih => simpa [hamming, List.zip_cons_cons, List.filter_cons] using ih

/-- Hamming distance is bounded by the length of the first list. -/
theorem hamming_le (a b : Fingerprint) : hamming a b ≤ a.length := by
  calc ((a.zip b).filter (fun p => p.1 != p.2)).length
      ≤ (a.zip b).length := List.length_filter_le _ _
    _ ≤ a.length := by rw [List.length_zip]; exact min_le_left _ _

/-- For same-length hashes, Hamming distance 0 characterises equality. -/
theorem hamming_eq_zero_iff :
    ∀ {a b : Fingerprint}, a.length = b.length → (hamming a b = 0 ↔ a = b) := by
  intro a
  induction a with
  | nil =>
    intro b hb
    cases b with
    | nil => simp [hamming]
    | cons y ys => simp at hb
  | cons x xs ih =>
    intro b hb
    cases b with
    | nil => simp at hb
    | cons y ys =>
      have hlen : xs.length = ys.length := by simpa using hb
      by_cases hxy : x = y
      · subst hxy
        simpa [hamming, List.zip_cons_cons, List.filter_cons] using ih hlen
      · simp [hamming, List.zip_cons_cons, List.filter_cons, bne_iff_ne, hxy]

/-- Round-half-even never goes below the floor. -/
theorem floor_le_roundHalfEven (q : ℚ) : ⌊q⌋ ≤ roundHalfEven q := by
  unfold roundHalfEven
  split_ifs <;> omega

/-- Round-half-even never exceeds the floor plus one. -/
theorem roundHalfEven_le_floor_add_one (q : ℚ) : roundHalfEven q ≤ ⌊q⌋ + 1 := by
  unfold roundHalfEven
  split_ifs <;> omega

/-- Round-half-even of a nonnegative rational is nonnegative. -/
theorem roundHalfEven_nonneg {q : ℚ} (h : 0 ≤ q) : 0 ≤ roundHalfEven q :=
  le_trans (Int.floor_nonneg.mpr h) (floor_le_roundHalfEven q)

/-- Round-half-even respects an integer upper bound of its argument. -/
theorem roundHalfEven_le_of_le {q : ℚ} {n : ℤ} (h : q ≤ (n : ℚ)) :
    roundHalfEven q ≤ n := by
  unfold roundHalfEven
  split_ifs with h1 h2 h3
  · exact le_trans (Int.floor_le_floor h) (le_of_eq (by simp))
  all_goals {
    have hfr : (1 : ℚ) / 2 ≤ q - ⌊q⌋ := le_of_not_lt h1
    have hq : (⌊q⌋ : ℚ) < q := by linarith
    have hn : ⌊q⌋ < n := by exact_mod_cast lt_of_lt_of_le hq h
    omega }

/-- For same-length hashes, similarity succeeds with the score of their
Hamming distance. -/
theorem similarity_eq_ok {h1 h2 : Fingerprint} (h : h1.length = h2.length) :
    similarity h1 h2 = .ok (scoreOf (hamming h1 h2)) := by
  simp [similarity, hashSub, h, scoreOf]

/-- Score at distance 0 is exactly 100. -/
theorem scoreOf_zero : scoreOf 0 = 100 := by decide

/-- Score at distance 1 is exactly 98.44. -/
theorem scoreOf_one : scoreOf 1 = 9844 / 100 := by decide

/-- The score is nonnegative whenever the distance is at most 64. -/
theorem scoreOf_nonneg {d : Nat} (hd : d ≤ 64) : 0 ≤ scoreOf d := by
  have h64 : (d : ℚ) ≤ 64 := by exact_mod_cast hd
  have hx : 0 ≤ (1 - (d : ℚ) / 64) * 100 * 100 := by nlinarith
  have h0 := roundHalfEven_nonneg hx
  unfold scoreOf round2
  have hc : (0 : ℚ) ≤ (roundHalfEven ((1 - (d : ℚ) / 64) * 100 * 100) : ℚ) := by
    exact_mod_cast h0
  positivity

/-- The score never exceeds 100. -/
theorem scoreOf_le_hundred (d : Nat) : scoreOf d ≤ 100 := by
  have hd0 : (0 : ℚ) ≤ (d : ℚ) := Nat.cast_nonneg d
  have hx : (1 - (d : ℚ) / 64) * 100 * 100 ≤ ((10000 : ℤ) : ℚ) := by
    push_cast
    nlinarith
  have h1 := roundHalfEven_le_of_le hx
  unfold scoreOf round2
  rw [div_le_iff₀ (by norm_num : (0 : ℚ) < 100)]
  have hc : (roundHalfEven ((1 - (d : ℚ) / 64) * 100 * 100) : ℚ) ≤ 10000 := by
    exact_mod_cast h1
  linarith

/-- One differing bit already forces the score strictly below 100. -/
theorem scoreOf_lt_hundred {d : Nat} (h1 : 1 ≤ d) : scoreOf d < 100 := by
  have hd1 : (1 : ℚ) ≤ (d : ℚ) := by exact_mod_cast h1
  have hx : (1 - (d : ℚ) / 64) * 100 * 100 ≤ ((9844 : ℤ) : ℚ) := by
    push_cast
    nlinarith
  have h2 := roundHalfEven_le_of_le hx
  unfold scoreOf round2
  rw [div_lt_iff₀ (by norm_num : (0 : ℚ) < 100)]
  have hc : (roundHalfEven ((1 - (d : ℚ) / 64) * 100 * 100) : ℚ) ≤ 9844 := by
    exact_mod_cast h2
  linarith

/-- C1: for every pair of 64-bit fingerprints the similarity score is
round((1 - d/64) * 100, 2) with d their Hamming distance (scoreOf unfolds to
exactly that expression), the score lies in the interval from 0 to 100, and
a fingerprint scores 100 against itself. -/
theorem similarity_score_spec (a b : Fingerprint)
    (ha : a.length = 64) (hb : b.length = 64) :
    similarity a b = .ok (scoreOf (hamming a b)) ∧
    0 ≤ scoreOf (hamming a b) ∧ scoreOf (hamming a b) ≤ 100 ∧
    similarity a a = .ok 100 := by
  have hd : hamming a b ≤ 64 := ha ▸ hamming_le a b
  refine ⟨similarity_eq_ok (ha.trans hb.symm), scoreOf_nonneg hd,
    scoreOf_le_hundred _, ?_⟩
  rw [similarity_eq_ok (rfl : a.length = a.length), hamming_self, scoreOf_zero]

/-- Witness for C1 at the concrete fingerprints qZero and qOne. -/
theorem similarity_score_spec_witness :
    qZero.length = 64 ∧
    (similarity qZero qOne = .ok (scoreOf (hamming qZero qOne)) ∧
      0 ≤ scoreOf (hamming qZero qOne) ∧ scoreOf (hamming qZero qOne) ≤ 100 ∧
      similarity qZero qZero = .ok 100) :=
  ⟨by decide, similarity_score_spec qZero qOne (by decide) (by decide)⟩

/-- C10: a perfect score of 100 certifies fingerprint equality for 64-bit
fingerprints, and conversely; a single differing bit already drops the score
to 98.44. -/
theorem perfect_score_iff_equal (a b : Fingerprint)
    (ha : a.length = 64) (hb : b.length = 64) :
    (similarity a b = .ok 100 ↔ a = b) ∧
    (hamming a b = 1 → similarity a b = .ok (9844 / 100)) := by
  have hlen : a.length = b.length := ha.trans hb.symm
  constructor
  · constructor
    · intro h
      rw [similarity_eq_ok hlen] at h
      have hs : scoreOf (hamming a b) = 100 := by
        simpa using h
      by_contra hne
      have hz : hamming a b ≠ 0 := fun h0 => hne ((hamming_eq_zero_iff hlen).mp h0)
      have hlt : scoreOf (hamming a b) < 100 :=
        scoreOf_lt_hundred (Nat.one_le_iff_ne_zero.mpr hz)
      rw [hs] at hlt
      exact lt_irrefl _ hlt
    · intro h
      subst h
      rw [similarity_eq_ok (rfl : a.length = a.length), hamming_self, scoreOf_zero]
  · intro h1
    rw [similarity_eq_ok hlen, h1, scoreOf_one]

/-- Witness for C10 at the concrete fingerprints qZero and qOne, whose
Hamming distance is 1. -/
theorem perfect_score_iff_equal_witness :
    qOne.length = 64 ∧ similarity qZero qOne = .ok (9844 / 100) :=
  ⟨by decide, (perfect_score_iff_equal qZero qOne (by decide) (by decide)).2 (by decide)⟩

/-- Folding the binary accumulator from a instead of 0 multiplies a by the
weight of the remaining bits. -/
theorem bitsToNat_foldl (l : List Bool) :
    ∀ a : Nat, List.foldl (fun acc b => 2 * acc + (if b then 1 else 0)) a l
      = a * 2 ^ l.length + bitsToNat l := by
  induction l with
  | nil => intro a; simp [bitsToNat]
  | cons b t ih =>
    intro a
    have hb : bitsToNat (b :: t) =
        2 ^ t.length * (if b then 1 else 0) + bitsToNat t := by
      show List.foldl (fun acc x => 2 * acc + (if x then 1 else 0)) 0 (b :: t) = _
      rw [List.foldl_cons, ih]
      norm_num
    rw [List.foldl_cons, ih, hb, List.length_cons]
    ring

/-- Peeling the most significant bit off the binary value. -/
theorem bitsToNat_cons (b : Bool) (t : List Bool) :
    bitsToNat (b :: t) = 2 ^ t.length * (if b then 1 else 0) + bitsToNat t := by
  show List.foldl (fun acc x => 2 * acc + (if x then 1 else 0)) 0 (b :: t) = _
  rw [List.foldl_cons, bitsToNat_foldl]
  norm_num

/-- The binary value of a bit list is bounded by 2 to its length. -/
theorem bitsToNat_lt (l : List Bool) : bitsToNat l < 2 ^ l.length := by
  induction l with
  | nil => simp [bitsToNat]
  | cons b t ih =>
    rw [bitsToNat_cons, List.length_cons, pow_succ]
    cases b <;> simp <;> omega

/-- Bit i of the binary value is the list entry counted from the end. -/
theorem bitsToNat_testBit : ∀ (l : List Bool) (i : Nat), i < l.length →
    (bitsToNat l).testBit i = l.getD (l.length - 1 - i) false := by
  intro l
  induction l with
  | nil => intro i hi; simp at hi
  | cons b t ih =>
    intro i hi
    rw [bitsToNat_cons]
    rcases Nat.lt_or_ge i t.length with hlt | hge
    · rw [Nat.testBit_mul_pow_two_add _ (bitsToNat_lt t) i, if_pos hlt, ih i hlt]
      have h1 : (b :: t).length - 1 - i = (t.length - 1 - i) + 1 := by
        rw [List.length_cons]
        omega
      rw [h1, List.getD_cons_succ]
    · have hieq : i = t.length := by
        rw [List.length_cons] at hi
        omega
      subst hieq
      rw [Nat.testBit_mul_pow_two_add _ (bitsToNat_lt t), if_neg (lt_irrefl _),
        Nat.sub_self]
      have h2 : (b :: t).length - 1 - t.length = 0 := by
        rw [List.length_cons]
        omega
      rw [h2, List.getD_cons_zero]
      cases b <;> decide

/-- Reading the bits of the binary value back, most significant first,
recovers the list. -/
theorem range_map_testBit (l : List Bool) :
    (List.range l.length).map (fun i => (bitsToNat l).testBit (l.length - 1 - i)) = l := by
  apply List.ext_getElem
  · simp
  · intro i h1 h2
    simp only [List.getElem_map, List.getElem_range]
    rw [bitsToNat_testBit l (l.length - 1 - i) (by omega)]
    have he : l.length - 1 - (l.length - 1 - i) = i := by omega
    rw [he, List.getD_eq_getElem l false h2]

/-- The fuel argument of the digit expansion is irrelevant once large
enough. -/
theorem hexDigitsAux_congr : ∀ (f1 f2 n : Nat), n < f1 → n < f2 →
    hexDigitsAux f1 n = hexDigitsAux f2 n := by
  intro f1
  induction f1 with
  | zero => intro f2 n h1 _; omega
  | succ f ih =>
    intro f2 n h1 h2
    cases f2 with
    | zero => omega
    | succ g =>
      simp only [hexDigitsAux]
      split
      · rfl
      · rename_i hn
        congr 1
        exact ih g (n / 16) (by omega) (by omega)

/-- Unfolding equation of the base-16 digit expansion. -/
theorem hexDigits_eq (n : Nat) :
    hexDigits n = if n < 16 then [hexDigitChar n]
      else hexDigits (n / 16) ++ [hexDigitChar (n % 16)] := by
  show hexDigitsAux (n + 1) n = _
  simp only [hexDigitsAux]
  split
  · rfl
  · rename_i hn
    show hexDigitsAux n (n / 16) ++ _ = hexDigitsAux (n / 16 + 1) (n / 16) ++ _
    congr 1
    exact hexDigitsAux_congr n (n / 16 + 1) (n / 16) (by omega) (by omega)

/-- The digit expansion is never empty. -/
theorem hexDigits_ne_nil (n : Nat) : hexDigits n ≠ [] := by
  rw [hexDigits_eq]
  split
  · simp
  · simp

/-- Parsing inverts the digit character encoding on digit values. -/
theorem hexVal_hexDigitChar {d : Nat} (h : d < 16) :
    hexVal (hexDigitChar d) = some d := by
  interval_cases d <;> decide

/-- Parsing splits along list append. -/
theorem parseHexAux_append (xs ys : List Char) :
    ∀ a, parseHexAux (xs ++ ys) a =
      match parseHexAux xs a with
      | none => none
      | some b => parseHexAux ys b := by
  induction xs with
  | nil => intro a; simp [parseHexAux]
  | cons c cs ih =>
    intro a
    simp only [List.cons_append, parseHexAux]
    cases hc : hexVal c with
    | none => simp
    | some v => simp [ih]

/-- Parsing the digit expansion of n from accumulator a recovers n with a
shifted by the digit count. -/
theorem parseHexAux_hexDigits : ∀ n : Nat, ∀ a : Nat,
    parseHexAux (hexDigits n) a = some (a * 16 ^ (hexDigits n).length + n) := by
  intro n
  induction n using Nat.strong_induction_on with
  | _ n ih =>
    intro a
    rw [hexDigits_eq n]
    split
    · rename_i h16
      simp [parseHexAux, hexVal_hexDigitChar h16]
      omega
    · rename_i h16
      have hlt : n / 16 < n := Nat.div_lt_self (by omega) (by omega)
      rw [parseHexAux_append, ih (n / 16) hlt a]
      have hm : n % 16 < 16 := Nat.mod_lt _ (by omega)
      simp only [parseHexAux, hexVal_hexDigitChar hm, List.length_append,
        List.length_cons, List.length_nil]
      congr 1
      have h3 : a * 16 ^ ((hexDigits (n / 16)).length + 1)
          = a * 16 ^ (hexDigits (n / 16)).length * 16 := by ring
      rw [h3]
      omega

/-- Leading zero characters do not change a parse started at 0. -/
theorem parseHexAux_replicate_zero : ∀ (k : Nat) (cs : List Char),
    parseHexAux (List.replicate k '0' ++ cs) 0 = parseHexAux cs 0 := by
  intro k
  induction k with
  | zero => intro cs; simp
  | succ m ih =>
    intro cs
    simp only [List.replicate_succ, List.cons_append, parseHexAux]
    have h0 : hexVal '0' = some 0 := by decide
    rw [h0]
    simpa using ih cs

/-- A value below 16 to the k needs at most k digits. -/
theorem hexDigits_length_le : ∀ n : Nat, ∀ k : Nat, 1 ≤ k → n < 16 ^ k →
    (hexDigits n).length ≤ k := by
  intro n
  induction n using Nat.strong_induction_on with
  | _ n ih =>
    intro k hk1 hnk
    rw [hexDigits_eq n]
    split
    · simpa using hk1
    · rename_i h16
      have hk2 : 2 ≤ k := by
        by_contra hlt
        have hke : k = 1 := by omega
        subst hke
        simp [pow_one] at hnk
        omega
      have hlt : n / 16 < n := Nat.div_lt_self (by omega) (by omega)
      have hbound : n / 16 < 16 ^ (k - 1) := by
        have hmul : n < 16 ^ (k - 1) * 16 := by
          rw [← pow_succ]
          have hke : k - 1 + 1 = k := by omega
          rw [hke]
          exact hnk
        exact (Nat.div_lt_iff_lt_mul (by omega)).mpr hmul
      have htail : (hexDigits (n / 16)).length ≤ k - 1 :=
        ih (n / 16) hlt (k - 1) (by omega) hbound
      simp only [List.length_append, List.length_cons, List.length_nil]
      omega

/-- The parse of a nonempty character list runs the accumulating parse. -/
theorem parseHex_ne_nil (cs : List Char) (h : cs ≠ []) :
    parseHex cs = parseHexAux cs 0 := by
  cases cs with
  | nil => exact absurd rfl h
  | cons c tl => rfl

/-- Evaluation of hexToHash on a string of 16 characters. -/
theorem hexToHash_mk16 (cs : List Char) (h16 : cs.length = 16) :
    hexToHash (String.mk cs) =
      match parseHexAux cs 0 with
      | none => .error .formatErr
      | some n => .ok ((List.range 64).map (fun i => n.testBit (64 - 1 - i))) := by
  have hl : (String.mk cs).length = 16 := h16
  have hd : (String.mk cs).data = cs := rfl
  have hne : cs ≠ [] := by
    intro hnil
    rw [hnil] at h16
    simp at h16
  simp only [hexToHash, hl, hd, parseHex_ne_nil cs hne]
  norm_num
  have hs : intSqrt 64 = 8 := by decide
  rw [hs]
  norm_num

/-- C6: decoding the canonical text encoding of a valid 64-bit fingerprint
yields the fingerprint back; the encoding is the lowercase zero-padded hex
string of length 16 produced by encodeHash. -/
theorem decode_encode_roundtrip (bits : Fingerprint) (h : bits.length = 64) :
    hexToHash (encodeHash bits) = .ok bits := by
  have hmlt : bitsToNat bits < 2 ^ 64 := by
    have hb := bitsToNat_lt bits
    rwa [h] at hb
  have hm16 : bitsToNat bits < 16 ^ 16 := by
    calc bitsToNat bits < 2 ^ 64 := hmlt
      _ = 16 ^ 16 := by norm_num
  have hdlen : (hexDigits (bitsToNat bits)).length ≤ 16 :=
    hexDigits_length_le _ 16 (by omega) hm16
  have henc : encodeHash bits = String.mk
      (List.replicate (16 - (hexDigits (bitsToNat bits)).length) '0'
        ++ hexDigits (bitsToNat bits)) := by
    unfold encodeHash
    rw [h]
  have hcslen : (List.replicate (16 - (hexDigits (bitsToNat bits)).length) '0'
      ++ hexDigits (bitsToNat bits)).length = 16 := by
    simp only [List.length_append, List.length_replicate]
    omega
  rw [henc, hexToHash_mk16 _ hcslen, parseHexAux_replicate_zero,
    parseHexAux_hexDigits (bitsToNat bits) 0]
  simp only [Nat.zero_mul, Nat.zero_add]
  have hfin : (List.range 64).map (fun i => (bitsToNat bits).testBit (64 - 1 - i))
      = bits := by
    have hr := range_map_testBit bits
    rw [h] at hr
    exact hr
  rw [hfin]

/-- Witness for C6 at a concrete 64-bit fingerprint with mixed bits. -/
theorem decode_encode_roundtrip_witness :
    qHalf.length = 64 ∧ hexToHash (encodeHash qHalf) = .ok qHalf :=
  ⟨by decide, decode_encode_roundtrip qHalf (by decide)⟩

/-- Inserting into the descending sort permutes a cons. -/
theorem insertDesc_perm (r : MatchRow) (l : List MatchRow) :
    (insertDesc r l).Perm (r :: l) := by
  induction l with
  | nil => exact List.Perm.refl _
  | cons x xs ih =>
    simp only [insertDesc]
    split
    · exact List.Perm.refl _
    · exact (List.Perm.cons x ih).trans (List.Perm.swap r x xs)

/-- The descending sort is a permutation of its input. -/
theorem sortDesc_perm (l : List MatchRow) : (sortDesc l).Perm l := by
  induction l with
  | nil => exact List.Perm.refl _
  | cons x xs ih =>
    simp only [sortDesc]
    exact (insertDesc_perm x (sortDesc xs)).trans (List.Perm.cons x ih)

/-- Every row the threshold loop keeps scored at least the threshold. -/
theorem collectResults_sound (q : Fingerprint) (t : ℚ) :
    ∀ (rows : List (Candidate × Fingerprint)) (res : List MatchRow),
      collectResults q t rows = .ok res → ∀ r ∈ res, t ≤ r.similarity := by
  intro rows
  induction rows with
  | nil =>
    intro res hres r hr
    simp only [collectResults] at hres
    injection hres with hres
    subst hres
    simp at hr
  | cons p rest ih =>
    obtain ⟨c, f⟩ := p
    intro res hres r hr
    simp only [collectResults] at hres
    cases hsim : similarity q f with
    | error e =>
      simp only [hsim] at hres
      exact absurd hres (by simp)
    | ok s =>
      simp only [hsim] at hres
      cases hrec : collectResults q t rest with
      | error e2 =>
        simp only [hrec] at hres
        exact absurd hres (by simp)
      | ok tl =>
        simp only [hrec, Except.ok.injEq] at hres
        by_cases hts : t ≤ s
        · rw [if_pos hts] at hres
          subst hres
          rcases List.mem_cons.mp hr with hre | hrt
          · subst hre
            simpa [mkRow] using hts
          · exact ih tl hrec r hrt
        · rw [if_neg hts] at hres
          subst hres
          exact ih tl hrec r hr

/-- A candidate scoring exactly the threshold is kept by the loop. -/
theorem collectResults_keeps (q : Fingerprint) (t : ℚ) :
    ∀ (rows : List (Candidate × Fingerprint)) (res : List MatchRow),
      collectResults q t rows = .ok res →
      ∀ (c : Candidate) (f : Fingerprint), (c, f) ∈ rows →
        similarity q f = .ok t → mkRow c t ∈ res := by
  intro rows
  induction rows with
  | nil =>
    intro res hres c f hmem
    simp at hmem
  | cons p rest ih =>
    obtain ⟨c1, f1⟩ := p
    intro res hres c f hmem hsim0
    simp only [collectResults] at hres
    cases hsim : similarity q f1 with
    | error e =>
      simp only [hsim] at hres
      exact absurd hres (by simp)
    | ok s =>
      simp only [hsim] at hres
      cases hrec : collectResults q t rest with
      | error e2 =>
        simp only [hrec] at hres
        exact absurd hres (by simp)
      | ok tl =>
        simp only [hrec, Except.ok.injEq] at hres
        rcases List.mem_cons.mp hmem with heq | hmr
        · have hc : c = c1 := congrArg Prod.fst heq
          have hf : f = f1 := congrArg Prod.snd heq
          subst hc
          subst hf
          rw [hsim] at hsim0
          injection hsim0 with hst
          rw [hst] at hres
          rw [if_pos (le_refl t)] at hres
          subst hres
          exact List.mem_cons_self _ _
        · have hmtl := ih tl hrec c f hmr hsim0
          by_cases hts : t ≤ s
          · rw [if_pos hts] at hres
            subst hres
            exact List.mem_cons_of_mem _ hmtl
          · rw [if_neg hts] at hres
            subst hres
            exact hmtl

/-- The stored-hash decoder only ever reports a format error. -/
theorem hexToHash_error_eq {s : String} {e : AppError}
    (h : hexToHash s = .error e) : e = .formatErr := by
  simp only [hexToHash] at h
  split at h
  · injection h with h1
    exact h1.symm
  · split at h
    · injection h with h1
      exact h1.symm
    · exact absurd h (by simp)

/-- A malformed stored hash anywhere in the table makes the column decode
raise. -/
theorem decodeAll_error_of_mem :
    ∀ (df : List Candidate) (c : Candidate), c ∈ df →
      hexToHash c.phash = .error .formatErr →
      decodeAll df = .error .formatErr := by
  intro df
  induction df with
  | nil =>
    intro c hc
    simp at hc
  | cons c0 rest ih =>
    intro c hc hbad
    cases h0 : hexToHash c0.phash with
    | error e =>
      have he : e = .formatErr := hexToHash_error_eq h0
      subst he
      simp [decodeAll, h0]
    | ok f0 =>
      have hcr : c ∈ rest := by
        rcases List.mem_cons.mp hc with hceq | hcr
        · subst hceq
          rw [h0] at hbad
          exact absurd hbad (by simp)
        · exact hcr
      simp [decodeAll, h0, ih c hcr hbad]

/-- Destructuring a successful comparison run into its stages. -/
theorem compareRun_results_elim {df : List Candidate} {q : Fingerprint} {t : ℚ}
    {k : Nat} {rs : List MatchRow} (h : compareRun df q t k = .results rs) :
    ∃ rows res, decodeAll df = .ok rows ∧ collectResults q t rows = .ok res ∧
      rs = (sortDesc res).take k := by
  simp only [compareRun] at h
  split at h
  · exact absurd h (by simp)
  · cases hdec : decodeAll df with
    | error e =>
      simp only [hdec] at h
      exact absurd h (by simp)
    | ok rows =>
      simp only [hdec] at h
      cases hcol : collectResults q t rows with
      | error e =>
        simp only [hcol] at h
        exact absurd h (by simp)
      | ok res =>
        simp only [hcol] at h
        cases res with
        | nil => simp at h
        | cons r0 tl =>
          simp only [CompareOutcome.results.injEq] at h
          exact ⟨rows, r0 :: tl, rfl, hcol, h.symm⟩

/-- C4: the rendered ranking never contains a row scoring strictly below the
threshold, and the filter keeps a candidate whose score equals the threshold
exactly. -/
theorem threshold_filter (df : List Candidate) (q : Fingerprint) (t : ℚ)
    (k : Nat) (rs : List MatchRow) :
    (compareRun df q t k = .results rs → ∀ r ∈ rs, t ≤ r.similarity) ∧
    (∀ (rows : List (Candidate × Fingerprint)) (res : List MatchRow)
        (c : Candidate) (f : Fingerprint),
      collectResults q t rows = .ok res → (c, f) ∈ rows →
      similarity q f = .ok t → mkRow c t ∈ res) := by
  constructor
  · intro h r hr
    obtain ⟨rows, res, hdec, hcol, hrs⟩ := compareRun_results_elim h
    have h1 : r ∈ (sortDesc res).take k := hrs ▸ hr
    have h2 : r ∈ sortDesc res := List.take_subset k (sortDesc res) h1
    have h3 : r ∈ res := (sortDesc_perm res).subset h2
    exact collectResults_sound q t rows res hcol r h3
  · intro rows res c f hcol hmem hsim
    exact collectResults_keeps q t rows res hcol c f hmem hsim

/-- Witness for C4: a run over cGood at threshold 50 keeps only rows at or
above 50, and the loop keeps cHalf, whose score is exactly the threshold. -/
theorem threshold_filter_witness :
    (50 : ℚ) ≤ (mkRow cGood 100).similarity ∧ mkRow cHalf 50 ∈ [mkRow cHalf 50] := by
  constructor
  · exact (threshold_filter [cGood] qZero 50 5 [mkRow cGood 100]).1 (by decide)
      (mkRow cGood 100) (by simp)
  · exact (threshold_filter [cGood] qZero 50 5 [mkRow cGood 100]).2
      [(cHalf, qHalf)] [mkRow cHalf 50] cHalf qHalf (by decide) (by simp) (by decide)

/-- C5: the rendered ranking has at most topK rows and at most as many rows
as candidates met the threshold; when fewer than topK met it, the ranking is
a permutation of all of them. -/
theorem topk_bound (df : List Candidate) (q : Fingerprint) (t : ℚ) (k : Nat)
    (rs : List MatchRow) (_hk : 1 ≤ k) (h : compareRun df q t k = .results rs) :
    rs.length ≤ k ∧
    ∃ rows res, decodeAll df = .ok rows ∧ collectResults q t rows = .ok res ∧
      rs.length ≤ res.length ∧ (res.length < k → rs.Perm res) := by
  obtain ⟨rows, res, hdec, hcol, hrs⟩ := compareRun_results_elim h
  have hsortlen : (sortDesc res).length = res.length := (sortDesc_perm res).length_eq
  constructor
  · rw [hrs, List.length_take]
    exact min_le_left _ _
  · refine ⟨rows, res, hdec, hcol, ?_, ?_⟩
    · rw [hrs, List.length_take, hsortlen]
      exact min_le_right _ _
    · intro hlt
      rw [hrs]
      have htake : (sortDesc res).take k = sortDesc res := by
        apply List.take_of_length_le
        rw [hsortlen]
        omega
      rw [htake]
      exact sortDesc_perm res

/-- Witness for C5 over two candidates with topK 5 and threshold 0. -/
theorem topk_bound_witness :
    [mkRow cGood 100, mkRow cFar 0].length ≤ 5 ∧
    ∃ rows res, decodeAll [cGood, cFar] = .ok rows ∧
      collectResults qZero 0 rows = .ok res ∧
      [mkRow cGood 100, mkRow cFar 0].length ≤ res.length ∧
      (res.length < 5 → List.Perm [mkRow cGood 100, mkRow cFar 0] res) :=
  topk_bound [cGood, cFar] qZero 0 5 _ (by norm_num) (by decide)

/-- C9: hashes of different bit lengths make the scorer fail with the
dimension-mismatch error instead of returning a score. -/
theorem dimension_mismatch (a b : Fingerprint) (h : a.length ≠ b.length) :
    similarity a b = .error .dimErr := by
  simp [similarity, hashSub, h]

/-- Witness for C9 at hashes of lengths 0 and 64. -/
theorem dimension_mismatch_witness :
    ([] : Fingerprint).length ≠ qZero.length ∧
    similarity [] qZero = .error .dimErr :=
  ⟨by decide, dimension_mismatch [] qZero (by decide)⟩

/-- C3 counterexample: a table holding one valid and one malformed stored
fingerprint makes the whole comparison run abort with the format error,
whereas the same run over only the valid entry returns a result; the
malformed row is not skipped. -/
theorem corrupt_row_aborts_cex :
    compareRun [cGood, cBad] qZero 0 5 = .aborted .formatErr ∧
    compareRun [cGood] qZero 0 5 = .results [mkRow cGood 100] :=
  ⟨by decide, by decide⟩

/-- C3 amended: a candidate whose stored fingerprint text is malformed makes
the whole ranking run abort with the format error; no per-candidate skip
happens. -/
theorem corrupt_row_aborts (df : List Candidate) (q : Fingerprint) (t : ℚ)
    (k : Nat) (c : Candidate) (hc : c ∈ df)
    (hbad : hexToHash c.phash = .error .formatErr) :
    compareRun df q t k = .aborted .formatErr := by
  have hne : df.isEmpty = false := by
    cases df with
    | nil => simp at hc
    | cons c0 rest => rfl
  simp [compareRun, hne, decodeAll_error_of_mem df c hc hbad]

/-- Witness for C3 amended at the concrete malformed row cBad. -/
theorem corrupt_row_aborts_witness :
    cBad ∈ [cBad] ∧ compareRun [cBad] qZero 40 5 = .aborted .formatErr :=
  ⟨by simp, corrupt_row_aborts [cBad] qZero 40 5 cBad (by simp) (by decide)⟩

/-- C7 counterexample: with an empty candidate table the comparison shows the
error box and stops; it does not produce the empty result sequence. -/
theorem empty_collection_error_cex :
    compareRun [] qZero 40 5 = .noSources ∧
    CompareOutcome.noSources ≠ CompareOutcome.results [] :=
  ⟨by decide, by decide⟩

/-- C7 amended: a nonempty table in which no candidate meets the threshold
yields the empty-result info outcome without an error, while an empty table
is rejected with an error box before ranking runs. -/
theorem empty_result_behaviour (df : List Candidate) (q : Fingerprint) (t : ℚ)
    (k : Nat) (rows : List (Candidate × Fingerprint)) :
    compareRun [] q t k = .noSources ∧
    (df ≠ [] → decodeAll df = .ok rows → collectResults q t rows = .ok [] →
      compareRun df q t k = .noMatches) := by
  constructor
  · rfl
  · intro hdf hdec hcol
    have hne : df.isEmpty = false := by
      cases df with
      | nil => exact absurd rfl hdf
      | cons c0 rest => rfl
    simp [compareRun, hne, hdec, hcol]

/-- Witness for C7 amended at threshold 101, which no score can reach. -/
theorem empty_result_behaviour_witness :
    [cGood] ≠ ([] : List Candidate) ∧ compareRun [cGood] qZero 101 5 = .noMatches := by
  refine ⟨by simp, ?_⟩
  exact (empty_result_behaviour [cGood] qZero 101 5 [(cGood, qZero)]).2
    (by simp) (by decide) (by decide)

/-- C8 counterexample: a registration batch holding one zero-length upload
finishes with success count 0 even when the extractor fails on every input;
the empty input is skipped silently instead of surfacing a decode error. -/
theorem empty_input_skipped_cex :
    registerBatch (fun _ => .error .decodeErr) [[]] = .ok 0 ∧
    (Except.ok 0 : Except AppError Nat) ≠ Except.error AppError.decodeErr :=
  ⟨rfl, by decide⟩

/-- C8 amended: a nonempty upload whose bytes the extractor cannot parse
makes the whole registration batch raise (the failure is surfaced, not
skipped), while a zero-length upload is skipped silently before the
extractor ever runs. -/
theorem decode_failure_surfaced (dec : List Nat → Except AppError Fingerprint) :
    (∀ (files : List (List Nat)) (d : List Nat), d ∈ files → d ≠ [] →
      dec d = .error .decodeErr → ∃ e, registerBatch dec files = .error e) ∧
    (∀ rest, registerBatch dec ([] :: rest) = registerBatch dec rest) := by
  constructor
  · intro files
    induction files with
    | nil =>
      intro d hd
      simp at hd
    | cons f0 rest ih =>
      intro d hd hne herr
      simp only [registerBatch]
      by_cases h0 : f0 = []
      · rw [if_pos h0]
        apply ih d ?_ hne herr
        rcases List.mem_cons.mp hd with hdeq | hdr
        · subst hdeq
          exact absurd h0 hne
        · exact hdr
      · rw [if_neg h0]
        cases hdec : dec f0 with
        | error e =>
          refine ⟨e, ?_⟩
          simp [hdec]
        | ok fp =>
          have hdr : d ∈ rest := by
            rcases List.mem_cons.mp hd with hdeq | hdr
            · subst hdeq
              rw [hdec] at herr
              exact absurd herr (by simp)
            · exact hdr
          obtain ⟨e, he⟩ := ih d hdr hne herr
          refine ⟨e, ?_⟩
          simp [hdec, he]
  · intro rest
    simp [registerBatch]

/-- Witness for C8 amended: a failing nonempty upload aborts the batch, and
a leading empty upload is dropped from the loop. -/
theorem decode_failure_surfaced_witness :
    [42] ∈ [[42], []] ∧
    (∃ e, registerBatch (fun _ => .error .decodeErr) [[42], []] = .error e) ∧
    registerBatch (fun _ => (.error .decodeErr : Except AppError Fingerprint))
        ([] :: [[42]])
      = registerBatch (fun _ => .error .decodeErr) [[42]] := by
  refine ⟨by simp, ?_, ?_⟩
  · exact (decode_failure_surfaced _).1 [[42], []] [42] (by simp) (by simp) rfl
  · exact (decode_failure_surfaced _).2 [[42]]

end ImageCompare
